import Mathlib

/-!
# Verification of the delta-palette color engine (`src/lib/color.ts`)

A shallow embedding of the palette-generation module. JavaScript numbers are
modelled as real numbers (`ℝ`); `Math.hypot` is the Euclidean norm; the
JavaScript sentinels `Infinity` / `-Infinity` used as initial accumulators are
modelled by `Option ℝ` with `none` standing for the not-yet-initialized
sentinel (every real number compares past it exactly as every finite float
compares past the infinite sentinel).

External capabilities (not part of this repository):
* the `culori` Oklab converter `toOklab` is a parameter `oklab : Color → Oklab`;
* the `color-blind` simulations (each used only as the hex round-trip
  `hexToRgb ∘ blinder.x ∘ rgbToHex`, a pure `Color → Color` map) are
  parameters `deut`, `prot`, `trit`;
* `Math.random` is a parameter `stream : ℕ → ℝ` of successive draws.
These are bundled in `Externals`.  The sampler's unbounded `while` loop is
modelled with explicit fuel, returning `none` when the fuel runs out.
-/

namespace DeltaPalette

open Classical

/-- A normalized RGB color, each channel in `[0,1]` (source type `Color`). -/
structure Color where
  r : ℝ
  g : ℝ
  b : ℝ


instance : Inhabited Color := ⟨⟨0, 0, 0⟩⟩

/-- An Oklab coordinate triple `(L, a, b)` as produced by the converter. -/
structure Oklab where
  l : ℝ
  a : ℝ
  b : ℝ

/-- The `Mode` union type of the source. -/
inductive Mode where
  | normal
  | deuteranopia
  | protanopia
  | tritanopia
  | both
deriving DecidableEq

/-- The external capabilities the module imports: the three `color-blind`
simulations (as `Color → Color`, absorbing the hex round-trip the source
wraps them in) and the `culori` Oklab converter. -/
structure Externals where
  deut : Color → Color
  prot : Color → Color
  trit : Color → Color
  oklab : Color → Oklab

/-- Source `simulateByMode` (lines 170-182): dispatch on the mode, with the
default branch returning the color unchanged for `"normal"` and `"both"`. -/
def simByMode (ext : Externals) (m : Mode) (c : Color) : Color :=
  match m with
  | .deuteranopia => ext.deut c
  | .protanopia => ext.prot c
  | .tritanopia => ext.trit c
  | _ => c

/-- Source `deltaEoklab` (lines 193-198): `Math.hypot` of the three
coordinate differences, i.e. the Euclidean distance in Oklab. -/
noncomputable def deltaE (x y : Oklab) : ℝ :=
  Real.sqrt ((x.l - y.l) ^ 2 + (x.a - y.a) ^ 2 + (x.b - y.b) ^ 2)

/-- Rank used only to justify the recursion of `distance` (the `"both"`
branch calls `distance` at the two simpler modes). -/
def modeRank : Mode → ℕ
  | .both => 1
  | _ => 0

/-- Source `distance` (lines 206-223): for `"both"`, the minimum of the
`"normal"` and `"deuteranopia"` distances; otherwise simulate both colors
under the mode and take the Oklab Euclidean distance. -/
noncomputable def distance (ext : Externals) (c1 c2 : Color) (mode : Mode) : ℝ :=
  match mode with
  | .both => min (distance ext c1 c2 .normal) (distance ext c1 c2 .deuteranopia)
  | m => deltaE (ext.oklab (simByMode ext m c1)) (ext.oklab (simByMode ext m c2))
termination_by modeRank mode
decreasing_by
  all_goals simp [modeRank]

/-- Source constant `MIN_DELTA_E` (line 235). -/
noncomputable def MIN_DELTA_E : ℝ := 0.2

/-- The per-pair score computed inside the greedy loop (lines 342-351):
simulate both colors with the selected simulation, convert to Oklab,
Euclidean distance.  `simC` is the simulation selected for the run,
i.e. `simByMode ext mode`. -/
noncomputable def pairScore (simC : Color → Color) (oklab : Color → Oklab)
    (c p : Color) : ℝ :=
  deltaE (oklab (simC c)) (oklab (simC p))

theorem pairScore_nonneg (simC : Color → Color) (oklab : Color → Oklab)
    (c p : Color) : 0 ≤ pairScore simC oklab c p :=
  Real.sqrt_nonneg _

/-- Comparison against a possibly still uninitialized accumulator: `none`
models the `-Infinity` starting value, which every real number exceeds. -/
def gtOpt (m : ℝ) : Option ℝ → Prop
  | none => True
  | some x => x < m

noncomputable instance (m : ℝ) : ∀ o, Decidable (gtOpt m o)
  | none => .isTrue trivial
  | some x => inferInstanceAs (Decidable (x < m))

/-- Inner `for p of palette` loop of the greedy phase (lines 341-356) after
the first palette element has replaced the `Infinity` accumulator: keep the
running minimum, breaking out early when it hits `0`. -/
noncomputable def minDEaux (score : Color → ℝ) : List Color → ℝ → ℝ
  | [], acc => acc
  | p :: ps, acc =>
      if score p < acc then
        if score p = 0 then score p else minDEaux score ps (score p)
      else minDEaux score ps acc

/-- The candidate's minimum ΔE to the palette `p0 :: prest` (the palette is
never empty when the greedy loop runs: it always holds the seed).  The first
iteration always replaces the `Infinity` accumulator by `score p0` and then
applies the `=== 0` early break, exactly as lines 338-356. -/
noncomputable def minDEc (score : Color → ℝ) (p0 : Color) (prest : List Color) : ℝ :=
  if score p0 = 0 then score p0 else minDEaux score prest (score p0)

/-- The selection state of one greedy step (lines 325-333): the best eligible
candidate so far, whether an eligible candidate was found, and the best
overall candidate for the fallback.  `none` models the `-Infinity`
initializers. -/
structure SelSt where
  found : Bool
  bIdx : ℕ
  bMin : Option ℝ
  fIdx : ℕ
  fMin : Option ℝ

/-- Initial selection state (lines 325-333). -/
def SelSt.init : SelSt := ⟨false, 0, none, 0, none⟩

/-- Fallback tracking of the candidate scan (lines 358-362): the candidate at
index `i` with minimum ΔE `m` replaces the fallback when it strictly improves
on it. -/
noncomputable def selFb (m : ℝ) (i : ℕ) (st : SelSt) : SelSt :=
  if gtOpt m st.fMin then { st with fIdx := i, fMin := some m } else st

/-- Eligibility tracking of the candidate scan (lines 364-371): a candidate
meeting the `MIN_DELTA_E` floor becomes the best eligible candidate when none
was found yet or when it strictly improves on the best one. -/
noncomputable def selElig (m : ℝ) (i : ℕ) (st : SelSt) : SelSt :=
  if MIN_DELTA_E ≤ m ∧ (st.found = false ∨ gtOpt m st.bMin) then
    { st with found := true, bIdx := i, bMin := some m }
  else st

/-- Body of the candidate scan (lines 358-371) for the candidate at index `i`
with minimum ΔE `m`: first the fallback tracker, then the eligibility test
against the `MIN_DELTA_E` floor. -/
noncomputable def selStep (m : ℝ) (i : ℕ) (st : SelSt) : SelSt :=
  selElig m i (selFb m i st)

/-- The `for (let i = 0; ...)` scan over the candidates (lines 336-372),
threading the selection state. -/
noncomputable def growSelAux (f : Color → ℝ) : List Color → ℕ → SelSt → SelSt
  | [], _, st => st
  | c :: cs, i, st => growSelAux f cs (i + 1) (selStep (f c) i st)

/-- One full candidate scan of the greedy loop starting from the initial
state, where `f c` is the candidate's minimum ΔE to the palette. -/
noncomputable def growSel (f : Color → ℝ) (cands : List Color) : SelSt :=
  growSelAux f cands 0 .init

/-- Line 375: take the best eligible candidate if one met the floor,
otherwise the fallback. -/
def chosenIdx (st : SelSt) : ℕ :=
  if st.found then st.bIdx else st.fIdx

/-- The greedy `while` loop (lines 324-378).  The palette is `p0 :: prest`
(seed first); each pass appends the chosen candidate and removes it from the
candidate list. -/
noncomputable def growLoop (pair : Color → Color → ℝ) (target : ℤ) (p0 : Color)
    (prest : List Color) (cands : List Color) : List Color :=
  if _h : (1 + prest.length : ℤ) < target ∧ cands ≠ [] then
    growLoop pair target p0
      (prest ++ [cands.getD (chosenIdx (growSel (fun c => minDEc (pair c) p0 prest) cands)) default])
      (cands.eraseIdx (chosenIdx (growSel (fun c => minDEc (pair c) p0 prest) cands)))
  else p0 :: prest
termination_by (target - 1 - (prest.length : ℤ)).toNat
decreasing_by
  simp only [List.length_append, List.length_cons, List.length_nil]
  omega

/-- The seed scan (lines 298-315): track the index of the candidate farthest
from simulated mid-gray, with a strict improvement test (first occurrence
wins ties); `none` models the `-Infinity` initializer. -/
noncomputable def seedLoop (dgray : Color → ℝ) :
    List Color → ℕ → ℕ × Option ℝ → ℕ × Option ℝ
  | [], _, st => st
  | c :: cs, i, st =>
      seedLoop dgray cs (i + 1) (if gtOpt (dgray c) st.2 then (i, some (dgray c)) else st)

/-- Source mid-gray constant (line 294). -/
noncomputable def midGray : Color := ⟨0.5, 0.5, 0.5⟩

/-- Steps 3-5 of `generatePalette` (lines 289-378): seed selection followed by
the greedy growth loop, on an already-sampled candidate pool.  (On an empty
pool — unreachable, since the sampler always supplies 10000 candidates — the
JavaScript indexing would be undefined; we return the empty palette.) -/
noncomputable def buildPalette (simC : Color → Color) (oklab : Color → Oklab)
    (target : ℤ) (pool : List Color) : List Color :=
  match pool with
  | [] => []
  | _ :: _ =>
      let dgray := fun c => deltaE (oklab (simC c)) (oklab (simC midGray))
      let seedIdx := (seedLoop dgray pool 0 (0, none)).1
      growLoop (pairScore simC oklab) target (pool.getD seedIdx default) []
        (pool.eraseIdx seedIdx)

/-- The sampling `while` loop (lines 267-287): draw three successive values
from the random stream, keep the draw only when the simulated Oklab lightness
is strictly between `0.2` and `0.9`, until 10000 candidates are collected.
The source loop is unbounded; `fuel` makes it total, `none` meaning the fuel
ran out before the pool filled. -/
noncomputable def sampleLoop (simC : Color → Color) (oklab : Color → Oklab)
    (stream : ℕ → ℝ) : ℕ → ℕ → List Color → Option (List Color)
  | 0, _, acc => if acc.length < 10000 then none else some acc
  | fuel + 1, k, acc =>
      if acc.length < 10000 then
        let c : Color := ⟨stream k, stream (k + 1), stream (k + 2)⟩
        if 0.2 < (oklab (simC c)).l ∧ (oklab (simC c)).l < 0.9 then
          sampleLoop simC oklab stream fuel (k + 3) (acc ++ [c])
        else
          sampleLoop simC oklab stream fuel (k + 3) acc
      else some acc

/-- Source `generatePalette` (lines 260-382) up to hex formatting: clamp the
target, sample the pool, seed and grow the palette. -/
noncomputable def paletteColors (ext : Externals) (stream : ℕ → ℝ) (fuel : ℕ)
    (n : ℤ) (mode : Mode) : Option (List Color) :=
  let target := max 1 (min n 25)
  (sampleLoop (simByMode ext mode) ext.oklab stream fuel 0 []).map
    fun raw => buildPalette (simByMode ext mode) ext.oklab target raw

/-- Whether a character is a hexadecimal digit (either case). -/
def isHexDigitCh (c : Char) : Bool :=
  c.isDigit || ('a' ≤ c && c ≤ 'f') || ('A' ≤ c && c ≤ 'F')

/-- Numeric value of a hexadecimal digit character (0 for anything else). -/
def hexVal (c : Char) : ℕ :=
  if c.isDigit then c.toNat - '0'.toNat
  else if 'a' ≤ c ∧ c ≤ 'f' then c.toNat - 'a'.toNat + 10
  else if 'A' ≤ c ∧ c ≤ 'F' then c.toNat - 'A'.toNat + 10
  else 0

/-- Whether the string is a valid 6-digit hex color, with or without the
leading `#`. -/
def validHex6 (s : String) : Bool :=
  let cs := s.toList
  let ds := if cs.head? = some '#' then cs.tail else cs
  ds.length == 6 && ds.all isHexDigitCh

/-- The Color a valid 6-digit hex string denotes: each pair of digits read as
a byte, normalized by 255. -/
noncomputable def hexColorOf (s : String) : Color :=
  let cs := s.toList
  let ds := if cs.head? = some '#' then cs.tail else cs
  ⟨((16 * hexVal (ds.getD 0 '0') + hexVal (ds.getD 1 '0') : ℕ) : ℝ) / 255,
   ((16 * hexVal (ds.getD 2 '0') + hexVal (ds.getD 3 '0') : ℕ) : ℝ) / 255,
   ((16 * hexVal (ds.getD 4 '0') + hexVal (ds.getD 5 '0') : ℕ) : ℝ) / 255⟩

/-- Modelled from the spec: the `culori` `parse` function, which is not part
of this repository.  Per the spec, parsing succeeds exactly on a valid
6-digit hex color, with or without the leading `#`, yielding the normalized
channels `digitPair/255`. -/
noncomputable def parseHex (s : String) : Option Color :=
  if validHex6 s = true then some (hexColorOf s) else none

/-- Source `hexToRgb` (lines 82-88): parse the string and extract the
channels; the `throw` on an unparseable input is modelled as `none`. -/
noncomputable def hexToRgb (s : String) : Option Color :=
  parseHex s

/-- Modelled from the spec: the rounding step of `culori`'s `formatHex`
(not part of this repository): clamp the channel to `[0,1]` and round to the
nearest of 256 levels. -/
noncomputable def chanByte (x : ℝ) : ℕ :=
  (round (255 * max 0 (min x 1))).toNat

/-- The sixteen lowercase hexadecimal digit characters. -/
def hexChar (n : ℕ) : Char :=
  "0123456789abcdef".toList.getD n '0'

/-- Two-digit lowercase hexadecimal rendering of a byte. -/
def byteHex (n : ℕ) : List Char :=
  [hexChar (n / 16), hexChar (n % 16)]

/-- Source `rgbToHex` (lines 95-103): format the color as `#RRGGBB` via the
spec-modelled `formatHex` rounding. -/
noncomputable def rgbToHex (c : Color) : String :=
  String.mk ('#' :: (byteHex (chanByte c.r) ++ byteHex (chanByte c.g) ++ byteHex (chanByte c.b)))

/-- Recognizer for the `#RRGGBB` shape of the response contract. -/
def isHexString (s : String) : Bool :=
  match s.toList with
  | '#' :: rest => rest.length = 6 && rest.all isHexDigitCh
  | _ => false

/-- Source `generatePalette` (lines 260-382): the palette colors formatted as
hex strings. -/
noncomputable def generatePalette (ext : Externals) (stream : ℕ → ℝ) (fuel : ℕ)
    (n : ℤ) (mode : Mode) : Option (List String) :=
  (paletteColors ext stream fuel n mode).map fun pal => pal.map rgbToHex

/-- Concrete externals used to exhibit counterexamples: the deuteranopia
simulation collapses every color to black, the other simulations are the
identity, and the Oklab converter reads off the red channel as lightness. -/
noncomputable def extCex : Externals :=
  ⟨fun _ => ⟨0, 0, 0⟩, fun c => c, fun c => c, fun c => ⟨c.r, 0, 0⟩⟩

/-- Concrete externals used to instantiate theorems at explicit inputs: all
simulations are the identity and the Oklab converter reads off the red
channel as lightness. -/
noncomputable def extW : Externals :=
  ⟨fun c => c, fun c => c, fun c => c, fun c => ⟨c.r, 0, 0⟩⟩

/-!  ## Invariants of the candidate scan

`g i` denotes the minimum ΔE of the candidate at index `i`.  `FInv` states
that the fallback tracker holds the first index realizing the maximum of `g`
over the indices scanned so far, and `EInv` the same for the best eligible
candidate relative to the `MIN_DELTA_E` floor. -/

/-- Fallback tracker invariant after scanning the first `k` candidates. -/
def FInv (g : ℕ → ℝ) (k : ℕ) (st : SelSt) : Prop :=
  (k = 0 ∧ st.fIdx = 0 ∧ st.fMin = none) ∨
  (st.fIdx < k ∧ st.fMin = some (g st.fIdx) ∧ (∀ i, i < k → g i ≤ g st.fIdx) ∧
    ∀ i, i < st.fIdx → g i < g st.fIdx)

/-- Eligible tracker invariant after scanning the first `k` candidates. -/
def EInv (g : ℕ → ℝ) (k : ℕ) (st : SelSt) : Prop :=
  (st.found = false ∧ ∀ i, i < k → ¬ MIN_DELTA_E ≤ g i) ∨
  (st.found = true ∧ st.bIdx < k ∧ st.bMin = some (g st.bIdx) ∧
    MIN_DELTA_E ≤ g st.bIdx ∧
    (∀ i, i < k → MIN_DELTA_E ≤ g i → g i ≤ g st.bIdx) ∧
    ∀ i, i < st.bIdx → MIN_DELTA_E ≤ g i → g i < g st.bIdx)

theorem selFb_proj (m : ℝ) (i : ℕ) (st : SelSt) :
    (selFb m i st).found = st.found ∧ (selFb m i st).bIdx = st.bIdx ∧
      (selFb m i st).bMin = st.bMin := by
  unfold selFb; split <;> simp

theorem selElig_proj (m : ℝ) (i : ℕ) (st : SelSt) :
    (selElig m i st).fIdx = st.fIdx ∧ (selElig m i st).fMin = st.fMin := by
  unfold selElig; split <;> simp

theorem selFb_FInv (g : ℕ → ℝ) (k : ℕ) (st : SelSt) (hF : FInv g k st) :
    FInv g (k + 1) (selFb (g k) k st) := by
  unfold selFb
  rcases hF with ⟨hk, hfi, hfm⟩ | ⟨hlt, hfm, hub, hstr⟩
  · subst hk
    rw [if_pos (by rw [hfm]; trivial)]
    refine Or.inr ⟨Nat.lt_succ_self 0, rfl, ?_, ?_⟩
    · intro i hi
      have : i = 0 := Nat.lt_one_iff.mp hi
      subst this; exact le_refl _
    · intro i hi
      exact absurd hi (Nat.not_lt_zero i)
  · by_cases hgt : gtOpt (g k) st.fMin
    · rw [if_pos hgt]
      rw [hfm] at hgt
      simp only [gtOpt] at hgt
      refine Or.inr ⟨Nat.lt_succ_self k, rfl, ?_, ?_⟩
      · intro i hi
        rcases Nat.lt_succ_iff_lt_or_eq.mp hi with h | h
        · exact le_of_lt (lt_of_le_of_lt (hub i h) hgt)
        · subst h; exact le_refl _
      · intro i hi
        exact lt_of_le_of_lt (hub i hi) hgt

    · rw [if_neg hgt]
      rw [hfm] at hgt
      simp only [gtOpt, not_lt] at hgt
      refine Or.inr ⟨Nat.lt_succ_of_lt hlt, hfm, ?_, hstr⟩
      intro i hi
      rcases Nat.lt_succ_iff_lt_or_eq.mp hi with h | h
      · exact hub i h
      · subst h; exact hgt

theorem selElig_EInv (g : ℕ → ℝ) (k : ℕ) (st : SelSt) (hE : EInv g k st) :
    EInv g (k + 1) (selElig (g k) k st) := by
  unfold selElig
  by_cases hm : MIN_DELTA_E ≤ g k
  · rcases hE with ⟨hfnd, hnone⟩ | ⟨hfnd, hblt, hbm, hbel, hub, hstr⟩
    · rw [if_pos ⟨hm, Or.inl hfnd⟩]
      refine Or.inr ⟨rfl, Nat.lt_succ_self k, rfl, hm, ?_, ?_⟩
      · intro i hi hel
        rcases Nat.lt_succ_iff_lt_or_eq.mp hi with h | h
        · exact absurd hel (hnone i h)
        · subst h; exact le_refl _
      · intro i hi hel
        exact absurd hel (hnone i hi)
    · by_cases hgt : gtOpt (g k) st.bMin
      · rw [if_pos ⟨hm, Or.inr hgt⟩]
        rw [hbm] at hgt
        simp only [gtOpt] at hgt
        refine Or.inr ⟨rfl, Nat.lt_succ_self k, rfl, hm, ?_, ?_⟩
        · intro i hi hel
          rcases Nat.lt_succ_iff_lt_or_eq.mp hi with h | h
          · exact le_of_lt (lt_of_le_of_lt (hub i h hel) hgt)
          · subst h; exact le_refl _
        · intro i hi hel
          exact lt_of_le_of_lt (hub i hi hel) hgt
      · rw [if_neg (by rw [hfnd]; simp [hgt])]
        rw [hbm] at hgt
        simp only [gtOpt, not_lt] at hgt
        refine Or.inr ⟨hfnd, Nat.lt_succ_of_lt hblt, hbm, hbel, ?_, hstr⟩
        intro i hi hel
        rcases Nat.lt_succ_iff_lt_or_eq.mp hi with h | h
        · exact hub i h hel
        · subst h; exact hgt
  · rw [if_neg (fun hc => hm hc.1)]
    rcases hE with ⟨hfnd, hnone⟩ | ⟨hfnd, hblt, hbm, hbel, hub, hstr⟩
    · refine Or.inl ⟨hfnd, ?_⟩
      intro i hi
      rcases Nat.lt_succ_iff_lt_or_eq.mp hi with h | h
      · exact hnone i h
      · subst h; exact hm
    · refine Or.inr ⟨hfnd, Nat.lt_succ_of_lt hblt, hbm, hbel, ?_, hstr⟩
      intro i hi hel
      rcases Nat.lt_succ_iff_lt_or_eq.mp hi with h | h
      · exact hub i h hel
      · subst h; exact absurd hel hm

theorem selStep_inv (g : ℕ → ℝ) (k : ℕ) (st : SelSt)
    (hF : FInv g k st) (hE : EInv g k st) :
    FInv g (k + 1) (selStep (g k) k st) ∧ EInv g (k + 1) (selStep (g k) k st) := by
  unfold selStep
  constructor
  · -- the eligibility update does not touch the fallback fields
    have h1 := selFb_FInv g k st hF
    rcases selElig_proj (g k) k (selFb (g k) k st) with ⟨hp1, hp2⟩
    unfold FInv at h1 ⊢
    rw [hp1, hp2]
    exact h1
  · -- the fallback update does not touch the eligibility fields
    have h0 : EInv g k (selFb (g k) k st) := by
      rcases selFb_proj (g k) k st with ⟨hp1, hp2, hp3⟩
      unfold EInv
      rw [hp1, hp2, hp3]
      exact hE
    exact selElig_EInv g k _ h0

theorem growSelAux_inv (f : Color → ℝ) (g : ℕ → ℝ) (cs : List Color) :
    ∀ (k : ℕ) (st : SelSt),
      (∀ j, j < cs.length → g (k + j) = f (cs.getD j default)) →
      FInv g k st → EInv g k st →
      FInv g (k + cs.length) (growSelAux f cs k st) ∧
        EInv g (k + cs.length) (growSelAux f cs k st) := by
  induction cs with
  | nil =>
      intro k st _ hF hE
      simpa using ⟨hF, hE⟩
  | cons c cs ih =>
      intro k st hg hF hE
      have hgc : g k = f c := by
        have := hg 0 (by simp)
        simpa using this
      have hg' : ∀ j, j < cs.length → g (k + 1 + j) = f (cs.getD j default) := by
        intro j hj
        have := hg (j + 1) (by simpa using Nat.succ_lt_succ hj)
        simpa [Nat.add_comm, Nat.add_left_comm, Nat.add_assoc] using this
      have hstep := selStep_inv g k st hF hE
      have := ih (k + 1) (selStep (g k) k st) hg' hstep.1 hstep.2
      rw [hgc] at this
      simpa [growSelAux, Nat.add_comm, Nat.add_left_comm, Nat.add_assoc] using this

theorem growSel_inv (f : Color → ℝ) (cands : List Color) :
    FInv (fun i => f (cands.getD i default)) cands.length (growSel f cands) ∧
      EInv (fun i => f (cands.getD i default)) cands.length (growSel f cands) := by
  have := growSelAux_inv f (fun i => f (cands.getD i default)) cands 0 .init
    (by intro j hj; simp) (Or.inl ⟨rfl, rfl, rfl⟩) (Or.inl ⟨rfl, fun i hi => absurd hi (Nat.not_lt_zero i)⟩)
  simpa [growSel] using this

/-- Final fallback facts: for a nonempty candidate list, the fallback index is
the first index maximizing the candidate score. -/
theorem growSel_fb (f : Color → ℝ) (cands : List Color) (hne : cands ≠ []) :
    (growSel f cands).fIdx < cands.length ∧
      (growSel f cands).fMin = some (f (cands.getD (growSel f cands).fIdx default)) ∧
      (∀ i, i < cands.length →
        f (cands.getD i default) ≤ f (cands.getD (growSel f cands).fIdx default)) ∧
      ∀ i, i < (growSel f cands).fIdx →
        f (cands.getD i default) < f (cands.getD (growSel f cands).fIdx default) := by
  rcases (growSel_inv f cands).1 with ⟨hk, _, _⟩ | ⟨hlt, hfm, hub, hstr⟩
  · exact absurd (List.length_eq_zero.mp hk) hne
  · exact ⟨hlt, hfm, hub, hstr⟩

/-- Final eligibility facts: `found` is set exactly when some candidate meets
the floor, and then the best index is the first index maximizing the score
among candidates meeting the floor. -/
theorem growSel_elig (f : Color → ℝ) (cands : List Color) :
    ((growSel f cands).found = true ↔
      ∃ i, i < cands.length ∧ MIN_DELTA_E ≤ f (cands.getD i default)) ∧
    ((growSel f cands).found = true →
      (growSel f cands).bIdx < cands.length ∧
      MIN_DELTA_E ≤ f (cands.getD (growSel f cands).bIdx default) ∧
      (∀ i, i < cands.length → MIN_DELTA_E ≤ f (cands.getD i default) →
        f (cands.getD i default) ≤ f (cands.getD (growSel f cands).bIdx default)) ∧
      ∀ i, i < (growSel f cands).bIdx → MIN_DELTA_E ≤ f (cands.getD i default) →
        f (cands.getD i default) < f (cands.getD (growSel f cands).bIdx default)) := by
  rcases (growSel_inv f cands).2 with ⟨hfnd, hnone⟩ | ⟨hfnd, hblt, _, hbel, hub, hstr⟩
  · constructor
    · constructor
      · intro h; rw [hfnd] at h; exact absurd h (by simp)
      · rintro ⟨i, hi, hel⟩; exact absurd hel (hnone i hi)
    · intro h; rw [hfnd] at h; exact absurd h (by simp)
  · constructor
    · exact ⟨fun _ => ⟨_, hblt, hbel⟩, fun _ => hfnd⟩
    · intro _; exact ⟨hblt, hbel, hub, hstr⟩

/-- The selected index is always in range for a nonempty candidate list. -/
theorem chosenIdx_lt (f : Color → ℝ) (cands : List Color) (hne : cands ≠ []) :
    chosenIdx (growSel f cands) < cands.length := by
  unfold chosenIdx
  by_cases h : (growSel f cands).found = true
  · rw [if_pos h]
    exact ((growSel_elig f cands).2 h).1
  · rw [if_neg h]
    exact (growSel_fb f cands hne).1

/-- The inner loop with its `=== 0` early break computes a lower bound of the
accumulator and of every score (scores are nonnegative, as every ΔE is a
square root), and the result is attained. -/
theorem minDEaux_min (score : Color → ℝ) (l : List Color) :
    ∀ acc : ℝ, (∀ p ∈ l, 0 ≤ score p) →
      minDEaux score l acc ≤ acc ∧
      (∀ p ∈ l, minDEaux score l acc ≤ score p) ∧
      (minDEaux score l acc = acc ∨ ∃ p ∈ l, minDEaux score l acc = score p) := by
  induction l with
  | nil =>
      intro acc _
      exact ⟨le_refl _, by simp, Or.inl rfl⟩
  | cons p ps ih =>
      intro acc h
      have hp : 0 ≤ score p := h p (by simp)
      have hps : ∀ q ∈ ps, 0 ≤ score q := fun q hq => h q (List.mem_cons_of_mem p hq)
      by_cases hlt : score p < acc
      · by_cases h0 : score p = 0
        · rw [minDEaux, if_pos hlt, if_pos h0]
          refine ⟨le_of_lt hlt, ?_, Or.inr ⟨p, by simp, rfl⟩⟩
          intro q hq
          rcases List.mem_cons.mp hq with rfl | hq
          · exact le_refl _
          · rw [h0]; exact hps q hq
        · rw [minDEaux, if_pos hlt, if_neg h0]
          rcases ih (score p) hps with ⟨h1, h2, h3⟩
          refine ⟨le_of_lt (lt_of_le_of_lt h1 hlt), ?_, ?_⟩
          · intro q hq
            rcases List.mem_cons.mp hq with rfl | hq
            · exact h1
            · exact h2 q hq
          · rcases h3 with h3 | ⟨q, hq, h3⟩
            · exact Or.inr ⟨p, by simp, h3⟩
            · exact Or.inr ⟨q, List.mem_cons_of_mem p hq, h3⟩
      · rw [minDEaux, if_neg hlt]
        push_neg at hlt
        rcases ih acc hps with ⟨h1, h2, h3⟩
        refine ⟨h1, ?_, ?_⟩
        · intro q hq
          rcases List.mem_cons.mp hq with rfl | hq
          · exact le_trans h1 hlt
          · exact h2 q hq
        · rcases h3 with h3 | ⟨q, hq, h3⟩
          · exact Or.inl h3
          · exact Or.inr ⟨q, List.mem_cons_of_mem p hq, h3⟩

/-- The candidate's minimum ΔE to the palette `p0 :: prest` is a lower bound
of every pairwise score and is attained at some palette member. -/
theorem minDEc_min (score : Color → ℝ) (p0 : Color) (prest : List Color)
    (h : ∀ p ∈ p0 :: prest, 0 ≤ score p) :
    (∀ p ∈ p0 :: prest, minDEc score p0 prest ≤ score p) ∧
      ∃ p ∈ p0 :: prest, minDEc score p0 prest = score p := by
  have hp0 : 0 ≤ score p0 := h p0 (by simp)
  have hps : ∀ p ∈ prest, 0 ≤ score p := fun q hq => h q (List.mem_cons_of_mem p0 hq)
  unfold minDEc
  by_cases h0 : score p0 = 0
  · rw [if_pos h0]
    refine ⟨?_, ⟨p0, by simp, rfl⟩⟩
    intro q hq
    rcases List.mem_cons.mp hq with rfl | hq
    · exact le_refl _
    · rw [h0]; exact hps q hq
  · rw [if_neg h0]
    rcases minDEaux_min score prest (score p0) hps with ⟨h1, h2, h3⟩
    refine ⟨?_, ?_⟩
    · intro q hq
      rcases List.mem_cons.mp hq with rfl | hq
      · exact h1
      · exact h2 q hq
    · rcases h3 with h3 | ⟨q, hq, h3⟩
      · exact ⟨p0, by simp, h3⟩
      · exact ⟨q, List.mem_cons_of_mem p0 hq, h3⟩

/-- The seed scan's index stays below the number of scanned candidates. -/
theorem seedLoop_fst_lt (dgray : Color → ℝ) (cs : List Color) :
    ∀ (k : ℕ) (st : ℕ × Option ℝ), st.1 < k →
      (seedLoop dgray cs k st).1 < k + cs.length := by
  induction cs with
  | nil =>
      intro k st h
      simpa [seedLoop] using h
  | cons c cs ih =>
      intro k st h
      rw [seedLoop]
      by_cases hgt : gtOpt (dgray c) st.2
      · rw [if_pos hgt]
        have := ih (k + 1) (k, some (dgray c)) (Nat.lt_succ_self k)
        simpa [Nat.add_comm, Nat.add_left_comm, Nat.add_assoc] using this
      · rw [if_neg hgt]
        have := ih (k + 1) st (Nat.lt_succ_of_lt h)
        simpa [Nat.add_comm, Nat.add_left_comm, Nat.add_assoc] using this

/-- The selected seed index is in range for a nonempty pool. -/
theorem seedIdx_lt (dgray : Color → ℝ) (pool : List Color) (hne : pool ≠ []) :
    (seedLoop dgray pool 0 (0, none)).1 < pool.length := by
  match pool, hne with
  | c :: cs, _ =>
      have h1 : seedLoop dgray (c :: cs) 0 (0, none) =
          seedLoop dgray cs 1 (0, some (dgray c)) := by
        simp [seedLoop, gtOpt]
      rw [h1]
      have := seedLoop_fst_lt dgray cs 1 (0, some (dgray c)) Nat.one_pos
      simpa [Nat.add_comm] using this

/-- Length of the palette produced by the greedy loop: grow by one per pass
until the target is reached or the candidates are exhausted. -/
theorem growLoop_length (pair : Color → Color → ℝ) (target : ℤ) (p0 : Color) :
    ∀ (n : ℕ) (cands prest : List Color), cands.length = n →
      ((growLoop pair target p0 prest cands).length : ℤ) =
        max (1 + (prest.length : ℤ))
          (min target (1 + (prest.length : ℤ) + (cands.length : ℤ))) := by
  intro n
  induction n using Nat.strong_induction_on with
  | _ n ih =>
    intro cands prest hn
    rw [growLoop]
    by_cases h : (1 + prest.length : ℤ) < target ∧ cands ≠ []
    · rw [dif_pos h]
      have hch : chosenIdx (growSel (fun c => minDEc (pair c) p0 prest) cands) <
          cands.length := chosenIdx_lt _ _ h.2
      have hlen := List.length_eraseIdx_add_one hch
      have := ih (cands.eraseIdx (chosenIdx (growSel (fun c => minDEc (pair c) p0 prest) cands))).length
        (by omega) _ (prest ++ [cands.getD (chosenIdx (growSel (fun c => minDEc (pair c) p0 prest) cands)) default]) rfl
      rw [this]
      have h1 := h.1
      simp only [List.length_append, List.length_cons, List.length_nil]
      push_cast
      push_cast at h1
      omega
    · rw [dif_neg h]
      push_neg at h
      simp only [List.length_cons]
      by_cases h2 : (1 + prest.length : ℤ) < target
      · have h3 : cands = [] := h h2
        subst h3
        simp only [List.length_nil]
        push_cast
        omega
      · push_cast
        push_cast at h2
        omega

/-- Length of a built palette: one seed plus one color per greedy pass. -/
theorem buildPalette_length (simC : Color → Color) (oklab : Color → Oklab)
    (target : ℤ) (pool : List Color) (ht : 1 ≤ target) :
    ((buildPalette simC oklab target pool).length : ℤ) =
      min target (pool.length : ℤ) := by
  match pool with
  | [] =>
      simp only [buildPalette, List.length_nil, Nat.cast_zero]
      omega
  | c :: cs =>
      rw [buildPalette]
      have hseed := seedIdx_lt
        (fun x => deltaE (oklab (simC x)) (oklab (simC midGray))) (c :: cs) (by simp)
      have hlen := List.length_eraseIdx_add_one hseed
      rw [growLoop_length _ _ _ _ _ _ rfl]
      simp only [List.length_nil, List.length_cons] at hlen ⊢
      push_cast
      omega

/-- A sampled pool has exactly 10000 entries (the loop stops exactly when the
pool reaches 10000 and only ever appends to a smaller pool). -/
theorem sampleLoop_length (simC : Color → Color) (oklab : Color → Oklab)
    (stream : ℕ → ℝ) :
    ∀ (fuel k : ℕ) (acc pool : List Color), acc.length ≤ 10000 →
      sampleLoop simC oklab stream fuel k acc = some pool →
      pool.length = 10000 := by
  intro fuel
  induction fuel with
  | zero =>
      intro k acc pool hle h
      rw [sampleLoop] at h
      by_cases hlt : acc.length < 10000
      · rw [if_pos hlt] at h; exact absurd h (by simp)
      · rw [if_neg hlt] at h
        cases h
        omega
  | succ fuel ih =>
      intro k acc pool hle h
      rw [sampleLoop] at h
      by_cases hlt : acc.length < 10000
      · rw [if_pos hlt] at h
        by_cases hacc : 0.2 < (oklab (simC ⟨stream k, stream (k + 1), stream (k + 2)⟩)).l ∧
            (oklab (simC ⟨stream k, stream (k + 1), stream (k + 2)⟩)).l < 0.9
        · rw [if_pos hacc] at h
          exact ih (k + 3) _ pool (by simp; omega) h
        · rw [if_neg hacc] at h
          exact ih (k + 3) acc pool hle h
      · rw [if_neg hlt] at h
        cases h
        omega

/-- Acceptance predicate for a sampled candidate: channels within `[0,1]` and
simulated Oklab lightness strictly between `0.2` and `0.9`. -/
def okCand (simC : Color → Color) (oklab : Color → Oklab) (c : Color) : Prop :=
  (0 ≤ c.r ∧ c.r ≤ 1) ∧ (0 ≤ c.g ∧ c.g ≤ 1) ∧ (0 ≤ c.b ∧ c.b ≤ 1) ∧
    0.2 < (oklab (simC c)).l ∧ (oklab (simC c)).l < 0.9

/-- Every entry of a sampled pool satisfies the acceptance predicate, given
that the random stream produces values in `[0,1)`. -/
theorem sampleLoop_mem (simC : Color → Color) (oklab : Color → Oklab)
    (stream : ℕ → ℝ) (hs : ∀ i, 0 ≤ stream i ∧ stream i < 1) :
    ∀ (fuel k : ℕ) (acc pool : List Color),
      (∀ c ∈ acc, okCand simC oklab c) →
      sampleLoop simC oklab stream fuel k acc = some pool →
      ∀ c ∈ pool, okCand simC oklab c := by
  intro fuel
  induction fuel with
  | zero =>
      intro k acc pool hacc h
      rw [sampleLoop] at h
      by_cases hlt : acc.length < 10000
      · rw [if_pos hlt] at h; exact absurd h (by simp)
      · rw [if_neg hlt] at h
        cases h
        exact hacc
  | succ fuel ih =>
      intro k acc pool hacc h
      rw [sampleLoop] at h
      by_cases hlt : acc.length < 10000
      · rw [if_pos hlt] at h
        by_cases hl : 0.2 < (oklab (simC ⟨stream k, stream (k + 1), stream (k + 2)⟩)).l ∧
            (oklab (simC ⟨stream k, stream (k + 1), stream (k + 2)⟩)).l < 0.9
        · rw [if_pos hl] at h
          refine ih (k + 3) _ pool ?_ h
          intro c hc
          rcases List.mem_append.mp hc with hc | hc
          · exact hacc c hc
          · have hc1 : c = ⟨stream k, stream (k + 1), stream (k + 2)⟩ := by
              simpa using hc
            subst hc1
            exact ⟨⟨(hs k).1, le_of_lt (hs k).2⟩, ⟨(hs (k + 1)).1, le_of_lt (hs (k + 1)).2⟩,
              ⟨(hs (k + 2)).1, le_of_lt (hs (k + 2)).2⟩, hl.1, hl.2⟩
        · rw [if_neg hl] at h
          exact ih (k + 3) acc pool hacc h
      · rw [if_neg hlt] at h
        cases h
        exact hacc

/-- Every hexadecimal digit character produced by `hexChar` is recognized. -/
theorem isHexDigitCh_hexChar (n : ℕ) : isHexDigitCh (hexChar n) = true := by
  by_cases h : n < 16
  · interval_cases n <;> decide
  · rw [hexChar, List.getD_eq_default]
    · decide
    · have : ("0123456789abcdef".toList).length = 16 := by decide
      omega

/-- Every formatted color matches `#RRGGBB`. -/
theorem isHexString_rgbToHex (c : Color) : isHexString (rgbToHex c) = true := by
  rw [rgbToHex, isHexString]
  simp only [byteHex]
  simp [isHexDigitCh_hexChar]

/-- Decomposing a list at an index: the list is a permutation of the indexed
element consed onto the list with that index removed. -/
theorem perm_getD_eraseIdx {α : Type} [Inhabited α] (l : List α) (i : ℕ)
    (hi : i < l.length) :
    List.Perm l (l.getD i default :: l.eraseIdx i) := by
  rw [List.getD_eq_getElem _ _ hi, List.eraseIdx_eq_take_drop_succ]
  conv_lhs => rw [← List.take_append_drop i l, List.drop_eq_getElem_cons hi]
  exact List.perm_middle

theorem getD_append_lt {α : Type} [Inhabited α] (L L' : List α) (j : ℕ)
    (hj : j < L.length) : (L ++ L').getD j default = L.getD j default := by
  rw [List.getD_eq_getElem _ _ hj,
    List.getD_eq_getElem _ _ (by rw [List.length_append]; omega),
    List.getElem_append_left hj]

theorem getD_append_self {α : Type} [Inhabited α] (L : List α) (x : α) :
    (L ++ [x]).getD L.length default = x := by
  rw [List.getD_eq_getElem _ _ (by rw [List.length_append]; simp)]
  rw [List.getElem_append_right (le_refl L.length)]
  simp

theorem getD_map_fst {α β : Type} [Inhabited α] [Inhabited β] (L : List (α × β))
    (j : ℕ) (hj : j < L.length) :
    (L.map Prod.fst).getD j default = (L.getD j default).1 := by
  rw [List.getD_eq_getElem _ _ hj,
    List.getD_eq_getElem _ _ (by rw [List.length_map]; omega),
    List.getElem_map]

/-- The greedy `while` loop instrumented with a flag per palette entry
recording whether the entry was chosen through the eligible branch
(`found = true`) or the fallback.  Identical to `growLoop` otherwise. -/
noncomputable def growLoopF (pair : Color → Color → ℝ) (target : ℤ)
    (p0 : Color × Bool) (prest : List (Color × Bool)) (cands : List Color) :
    List (Color × Bool) :=
  if _h : (1 + prest.length : ℤ) < target ∧ cands ≠ [] then
    growLoopF pair target p0
      (prest ++ [(cands.getD (chosenIdx (growSel
          (fun c => minDEc (pair c) p0.1 (prest.map Prod.fst)) cands)) default,
        (growSel (fun c => minDEc (pair c) p0.1 (prest.map Prod.fst)) cands).found)])
      (cands.eraseIdx (chosenIdx (growSel
        (fun c => minDEc (pair c) p0.1 (prest.map Prod.fst)) cands)))
  else p0 :: prest
termination_by (target - 1 - (prest.length : ℤ)).toNat
decreasing_by
  simp only [List.length_append, List.length_cons, List.length_nil]
  omega

/-- Forgetting the flags recovers the source loop. -/
theorem growLoopF_fst (pair : Color → Color → ℝ) (target : ℤ) :
    ∀ (n : ℕ) (cands : List Color) (p0 : Color × Bool)
      (prest : List (Color × Bool)), cands.length = n →
      (growLoopF pair target p0 prest cands).map Prod.fst =
        growLoop pair target p0.1 (prest.map Prod.fst) cands := by
  intro n
  induction n using Nat.strong_induction_on with
  | _ n ih =>
    intro cands p0 prest hn
    rw [growLoopF, growLoop]
    by_cases h : (1 + prest.length : ℤ) < target ∧ cands ≠ []
    · have h' : (1 + ((prest.map Prod.fst).length : ℤ)) < target ∧ cands ≠ [] := by
        rw [List.length_map]; exact h
      rw [dif_pos h, dif_pos h']
      have hch : chosenIdx (growSel
          (fun c => minDEc (pair c) p0.1 (prest.map Prod.fst)) cands) < cands.length :=
        chosenIdx_lt _ _ h.2
      have hlen := List.length_eraseIdx_add_one hch
      rw [ih (cands.eraseIdx (chosenIdx (growSel
          (fun c => minDEc (pair c) p0.1 (prest.map Prod.fst)) cands))).length
        (by omega) _ _ _ rfl]
      simp [List.map_append]
    · have h' : ¬ ((1 + ((prest.map Prod.fst).length : ℤ)) < target ∧ cands ≠ []) := by
        rw [List.length_map]; exact h
      rw [dif_neg h, dif_neg h']
      simp

/-- The separation floor invariant: every palette entry flagged as chosen
through the eligible branch is at pairwise score at least `MIN_DELTA_E` from
every earlier entry. -/
def floorInv (pair : Color → Color → ℝ) (pal : List (Color × Bool)) : Prop :=
  ∀ j, j < pal.length → (pal.getD j default).2 = true →
    ∀ i, i < j → MIN_DELTA_E ≤ pair (pal.getD j default).1 (pal.getD i default).1

/-- The greedy loop preserves the separation floor invariant: an entry
appended through the eligible branch has minimum ΔE at least `MIN_DELTA_E`
to the whole palette at the moment of its insertion, and the palette is only
ever appended to. -/
theorem growLoopF_floor (pair : Color → Color → ℝ) (target : ℤ)
    (hpair : ∀ c p, 0 ≤ pair c p) :
    ∀ (n : ℕ) (cands : List Color) (p0 : Color × Bool)
      (prest : List (Color × Bool)), cands.length = n →
      floorInv pair (p0 :: prest) →
      floorInv pair (growLoopF pair target p0 prest cands) := by
  intro n
  induction n using Nat.strong_induction_on with
  | _ n ih =>
    intro cands p0 prest hn hinv
    rw [growLoopF]
    by_cases h : (1 + prest.length : ℤ) < target ∧ cands ≠ []
    · rw [dif_pos h]
      have hch : chosenIdx (growSel
          (fun c => minDEc (pair c) p0.1 (prest.map Prod.fst)) cands) < cands.length :=
        chosenIdx_lt _ _ h.2
      have hlen := List.length_eraseIdx_add_one hch
      refine ih (cands.eraseIdx (chosenIdx (growSel
          (fun c => minDEc (pair c) p0.1 (prest.map Prod.fst)) cands))).length
        (by omega) _ _ _ rfl ?_
      -- the flag invariant carries over to the extended palette
      intro j hj hflag i hij
      rw [show p0 :: (prest ++ [(cands.getD (chosenIdx (growSel
          (fun c => minDEc (pair c) p0.1 (prest.map Prod.fst)) cands)) default,
          (growSel (fun c => minDEc (pair c) p0.1 (prest.map Prod.fst)) cands).found)])
        = (p0 :: prest) ++ [(cands.getD (chosenIdx (growSel
          (fun c => minDEc (pair c) p0.1 (prest.map Prod.fst)) cands)) default,
          (growSel (fun c => minDEc (pair c) p0.1 (prest.map Prod.fst)) cands).found)]
        from rfl] at hj hflag ⊢
      simp only [List.length_append, List.length_cons, List.length_nil] at hj
      by_cases hjlt : j < (p0 :: prest).length
      · -- an old entry: the invariant is inherited verbatim
        rw [getD_append_lt _ _ _ hjlt] at hflag ⊢
        rw [getD_append_lt _ _ _ (lt_trans hij hjlt)]
        exact hinv j hjlt hflag i hij
      · -- the new entry: it carries the `found` flag of its selection
        have hj' : j = (p0 :: prest).length := by
          simp only [List.length_cons] at hjlt ⊢
          omega
        subst hj'
        rw [getD_append_self] at hflag ⊢
        have hfnd : (growSel
            (fun c => minDEc (pair c) p0.1 (prest.map Prod.fst)) cands).found = true := hflag
        have hel := (growSel_elig
          (fun c => minDEc (pair c) p0.1 (prest.map Prod.fst)) cands).2 hfnd
        have hchosen : chosenIdx (growSel
            (fun c => minDEc (pair c) p0.1 (prest.map Prod.fst)) cands) =
            (growSel (fun c => minDEc (pair c) p0.1 (prest.map Prod.fst)) cands).bIdx := by
          rw [chosenIdx, if_pos hfnd]
        have hbel : MIN_DELTA_E ≤ minDEc (pair (cands.getD (chosenIdx (growSel
            (fun c => minDEc (pair c) p0.1 (prest.map Prod.fst)) cands)) default))
            p0.1 (prest.map Prod.fst) := by
          rw [hchosen]
          exact hel.2.1
        have hmin := minDEc_min (pair (cands.getD (chosenIdx (growSel
            (fun c => minDEc (pair c) p0.1 (prest.map Prod.fst)) cands)) default))
          p0.1 (prest.map Prod.fst) (fun p _ => hpair _ p)
        have hmem : ((p0 :: prest).getD i default).1 ∈ p0.1 :: prest.map Prod.fst := by
          have h1 : (p0 :: prest).getD i default ∈ p0 :: prest := by
            rw [List.getD_eq_getElem _ _ hij]
            exact List.getElem_mem hij
          exact List.mem_map_of_mem Prod.fst h1
        rw [getD_append_lt _ _ _ hij] at *
        exact le_trans hbel (hmin.1 _ hmem)
    · rw [dif_neg h]
      exact hinv

/-- The Oklab Euclidean distance is symmetric. -/
theorem deltaE_comm (x y : Oklab) : deltaE x y = deltaE y x := by
  unfold deltaE
  ring_nf

/-- At mode `"normal"`, the exported distance is exactly the in-loop pairwise
score. -/
theorem distance_normal (ext : Externals) (a b : Color) :
    distance ext a b .normal = pairScore (simByMode ext .normal) ext.oklab a b := by
  simp [distance, pairScore]

/-- The palette builder instrumented with eligibility flags (the seed is
flagged `true`; it is never subject to the floor, having no predecessors). -/
noncomputable def buildPaletteF (simC : Color → Color) (oklab : Color → Oklab)
    (target : ℤ) (pool : List Color) : List (Color × Bool) :=
  match pool with
  | [] => []
  | _ :: _ =>
      let dgray := fun c => deltaE (oklab (simC c)) (oklab (simC midGray))
      let seedIdx := (seedLoop dgray pool 0 (0, none)).1
      growLoopF (pairScore simC oklab) target (pool.getD seedIdx default, true) []
        (pool.eraseIdx seedIdx)

/-- Forgetting the flags recovers the source palette builder. -/
theorem buildPaletteF_fst (simC : Color → Color) (oklab : Color → Oklab)
    (target : ℤ) (pool : List Color) :
    (buildPaletteF simC oklab target pool).map Prod.fst =
      buildPalette simC oklab target pool := by
  match pool with
  | [] => rfl
  | c :: cs =>
      rw [buildPaletteF, buildPalette]
      exact growLoopF_fst (pairScore simC oklab) target _ _ _ [] rfl

/-- Every built palette satisfies the separation floor invariant. -/
theorem buildPaletteF_floor (simC : Color → Color) (oklab : Color → Oklab)
    (target : ℤ) (pool : List Color) :
    floorInv (pairScore simC oklab) (buildPaletteF simC oklab target pool) := by
  match pool with
  | [] =>
      intro j hj
      simp [buildPaletteF] at hj
  | c :: cs =>
      rw [buildPaletteF]
      refine growLoopF_floor (pairScore simC oklab) target
        (pairScore_nonneg simC oklab) _ _ _ [] rfl ?_
      intro j hj hflag i hij
      have hj0 : j = 0 := by
        simp only [List.length_cons, List.length_nil] at hj
        omega
      subst hj0
      exact absurd hij (Nat.not_lt_zero i)

/-- Moving one element of a list through the greedy loop: the result is a
sub-multiset of the starting palette together with the candidate list. -/
theorem growLoop_subperm (pair : Color → Color → ℝ) (target : ℤ) (p0 : Color) :
    ∀ (n : ℕ) (cands prest : List Color), cands.length = n →
      List.Subperm (growLoop pair target p0 prest cands) ((p0 :: prest) ++ cands) := by
  intro n
  induction n using Nat.strong_induction_on with
  | _ n ih =>
    intro cands prest hn
    rw [growLoop]
    by_cases h : (1 + prest.length : ℤ) < target ∧ cands ≠ []
    · rw [dif_pos h]
      have hch : chosenIdx (growSel
          (fun c => minDEc (pair c) p0 prest) cands) < cands.length :=
        chosenIdx_lt _ _ h.2
      have hlen := List.length_eraseIdx_add_one hch
      have hstep := ih (cands.eraseIdx (chosenIdx (growSel
          (fun c => minDEc (pair c) p0 prest) cands))).length (by omega) _
        (prest ++ [cands.getD (chosenIdx (growSel
          (fun c => minDEc (pair c) p0 prest) cands)) default]) rfl
      refine hstep.trans (List.Perm.subperm ?_)
      have hperm := perm_getD_eraseIdx cands (chosenIdx (growSel
        (fun c => minDEc (pair c) p0 prest) cands)) hch
      have h1 : (p0 :: (prest ++ [cands.getD (chosenIdx (growSel
          (fun c => minDEc (pair c) p0 prest) cands)) default])) ++
            cands.eraseIdx (chosenIdx (growSel
              (fun c => minDEc (pair c) p0 prest) cands))
          = (p0 :: prest) ++ ([cands.getD (chosenIdx (growSel
              (fun c => minDEc (pair c) p0 prest) cands)) default] ++
            cands.eraseIdx (chosenIdx (growSel
              (fun c => minDEc (pair c) p0 prest) cands))) := by
        simp [List.append_assoc]
      rw [h1]
      exact List.Perm.append_left _ (List.Perm.symm (by simpa using hperm))
    · rw [dif_neg h]
      exact (List.sublist_append_left _ _).subperm

/-!  ## Claim theorems -/

/-- C6: for all colors `a` and `b`, `distance a b "both"` equals the minimum
of `distance a b "normal"` and `distance a b "deuteranopia"`. -/
theorem distance_both_eq_min (ext : Externals) (c1 c2 : Color) :
    distance ext c1 c2 .both =
      min (distance ext c1 c2 .normal) (distance ext c1 c2 .deuteranopia) := by
  simp [distance]

/-- C2 counterexample: with the collapsing deuteranopia simulation of
`extCex`, the per-pair score computed inside the greedy loop for mode
`"both"` differs from the exported `distance` at `mode = "both"`: the loop
treats `"both"` as `"normal"`, while `distance` takes the minimum with the
deuteranopia distance. -/
theorem pairScore_ne_distance_both :
    pairScore (simByMode extCex .both) extCex.oklab ⟨1, 0, 0⟩ ⟨0, 0, 0⟩ ≠
      distance extCex ⟨1, 0, 0⟩ ⟨0, 0, 0⟩ .both := by
  simp [pairScore, distance, simByMode, deltaE, extCex]

/-- C2 (amended): the per-pair score computed inside the greedy loop equals
the exported `distance` at the same mode for the four non-`"both"` modes; for
`"both"` it equals the `"normal"` distance instead (the loop's
`simulateByMode` treats `"both"` as `"normal"` and never calls `distance`). -/
theorem pairScore_eq_distance (ext : Externals) (mode : Mode) (c p : Color) :
    pairScore (simByMode ext mode) ext.oklab c p =
      distance ext c p (if mode = .both then .normal else mode) := by
  cases mode <;> simp [pairScore, distance, simByMode]

/-- C7: whenever the sampling loop terminates, the candidate pool it built
contains exactly 10000 entries, every entry has all three channels in
`[0,1]`, and every entry's simulated Oklab lightness under the requested mode
lies strictly between `0.2` and `0.9`. -/
theorem samplePool_spec (ext : Externals) (mode : Mode) (stream : ℕ → ℝ)
    (hs : ∀ i, 0 ≤ stream i ∧ stream i < 1) (fuel : ℕ) :
    (sampleLoop (simByMode ext mode) ext.oklab stream fuel 0 []).elim True
      fun pool => pool.length = 10000 ∧
        ∀ c ∈ pool, okCand (simByMode ext mode) ext.oklab c := by
  cases h : sampleLoop (simByMode ext mode) ext.oklab stream fuel 0 [] with
  | none => exact trivial
  | some pool =>
      refine ⟨sampleLoop_length _ _ _ fuel 0 [] pool (by simp) h, ?_⟩
      exact sampleLoop_mem _ _ _ hs fuel 0 [] pool (by simp) h

/-- C7 witness: the stream-range hypothesis discharged at the constant zero
stream. -/
theorem samplePool_spec_witness :
    (∀ _i : ℕ, 0 ≤ (0 : ℝ) ∧ (0 : ℝ) < 1) ∧
    ((sampleLoop (simByMode extW .normal) extW.oklab (fun _ => 0) 0 0 []).elim True
      fun pool => pool.length = 10000 ∧
        ∀ c ∈ pool, okCand (simByMode extW .normal) extW.oklab c) :=
  ⟨fun _ => by norm_num,
    samplePool_spec extW .normal (fun _ => 0) (fun _ => by norm_num) 0⟩

/-- C4: for every integer `n` and every mode, a returned palette consists of
exactly `clamp(n, 1, 25)` strings (the sampled pool always has 10000 ≥ 25
entries), each matching `#RRGGBB`; an out-of-range `n` is silently clamped,
never an error. -/
theorem generatePalette_count_format (ext : Externals) (stream : ℕ → ℝ)
    (fuel : ℕ) (n : ℤ) (mode : Mode) :
    (generatePalette ext stream fuel n mode).elim True fun res =>
      (res.length : ℤ) = max 1 (min n 25) ∧ res.all isHexString = true := by
  unfold generatePalette paletteColors
  cases h : sampleLoop (simByMode ext mode) ext.oklab stream fuel 0 [] with
  | none => simp [h]
  | some pool =>
      have hlen : pool.length = 10000 := sampleLoop_length _ _ _ fuel 0 [] pool (by simp) h
      simp only [h, Option.map_some', Option.elim]
      constructor
      · rw [List.length_map, buildPalette_length _ _ _ _ (by omega), hlen]
        norm_num
      · rw [List.all_eq_true]
        intro s hs
        rcases List.mem_map.mp hs with ⟨c, _, rfl⟩
        exact isHexString_rgbToHex c

/-- C1: in every growth step (palette below the clamped target, candidates
remaining), the builder computes each candidate's minimum pairwise score to
the current palette (`minDEc` is a lower bound of every pairwise score and is
attained); if some candidate reaches the `MIN_DELTA_E` floor the chosen index
is the first index maximizing the minimum among floor-reaching candidates,
otherwise it is the first index maximizing the minimum globally; and the loop
continues with the chosen candidate appended to the palette and removed from
the candidate list. -/
theorem growStep_maximin (simC : Color → Color) (oklab : Color → Oklab)
    (target : ℤ) (p0 : Color) (prest cands : List Color)
    (f : Color → ℝ) (chosen : ℕ)
    (hf : f = fun c => minDEc (pairScore simC oklab c) p0 prest)
    (hchosen : chosen = chosenIdx (growSel f cands))
    (hne : cands ≠ []) (hlt : (1 + prest.length : ℤ) < target) :
    (∀ c, (∀ p ∈ p0 :: prest, f c ≤ pairScore simC oklab c p) ∧
        ∃ p ∈ p0 :: prest, f c = pairScore simC oklab c p) ∧
    chosen < cands.length ∧
    ((∃ i, i < cands.length ∧ MIN_DELTA_E ≤ f (cands.getD i default)) →
      MIN_DELTA_E ≤ f (cands.getD chosen default) ∧
      (∀ i, i < cands.length → MIN_DELTA_E ≤ f (cands.getD i default) →
        f (cands.getD i default) ≤ f (cands.getD chosen default)) ∧
      ∀ i, i < chosen → MIN_DELTA_E ≤ f (cands.getD i default) →
        f (cands.getD i default) < f (cands.getD chosen default)) ∧
    ((¬ ∃ i, i < cands.length ∧ MIN_DELTA_E ≤ f (cands.getD i default)) →
      (∀ i, i < cands.length → f (cands.getD i default) ≤ f (cands.getD chosen default)) ∧
      ∀ i, i < chosen → f (cands.getD i default) < f (cands.getD chosen default)) ∧
    growLoop (pairScore simC oklab) target p0 prest cands =
      growLoop (pairScore simC oklab) target p0
        (prest ++ [cands.getD chosen default]) (cands.eraseIdx chosen) := by
  subst hf hchosen
  refine ⟨?_, chosenIdx_lt _ _ hne, ?_, ?_, ?_⟩
  · intro c
    exact minDEc_min (pairScore simC oklab c) p0 prest
      (fun p _ => pairScore_nonneg simC oklab c p)
  · intro hex
    have hfnd : (growSel (fun c => minDEc (pairScore simC oklab c) p0 prest) cands).found
        = true := (growSel_elig _ cands).1.mpr hex
    rcases (growSel_elig _ cands).2 hfnd with ⟨_, hbel, hub, hstr⟩
    rw [chosenIdx, if_pos hfnd]
    exact ⟨hbel, hub, hstr⟩
  · intro hnex
    have hfnd : (growSel (fun c => minDEc (pairScore simC oklab c) p0 prest) cands).found
        ≠ true := fun h => hnex ((growSel_elig _ cands).1.mp h)
    rcases growSel_fb _ cands hne with ⟨_, _, hub, hstr⟩
    rw [chosenIdx, if_neg hfnd]
    exact ⟨hub, hstr⟩
  · rw [growLoop]
    rw [dif_pos ⟨hlt, hne⟩]

/-- C1 witness: the hypotheses discharged at a concrete one-candidate list
with the identity simulation and the red-channel Oklab converter. -/
theorem growStep_maximin_witness :
    (((⟨1, 0, 0⟩ : Color) :: []) ≠ [] ∧ (1 + (([] : List Color).length : ℤ)) < 2) ∧
    chosenIdx (growSel
        (fun x => minDEc (pairScore (fun y => y) extW.oklab x) ⟨0, 0, 0⟩ [])
        [⟨1, 0, 0⟩]) < [(⟨1, 0, 0⟩ : Color)].length :=
  ⟨⟨by simp, by norm_num⟩,
    (growStep_maximin (fun c => c) extW.oklab 2 ⟨0, 0, 0⟩ [] [⟨1, 0, 0⟩]
      _ _ rfl rfl (by simp) (by norm_num)).2.1⟩

/-- The in-loop pairwise score is symmetric. -/
theorem pairScore_comm (simC : Color → Color) (oklab : Color → Oklab)
    (a b : Color) : pairScore simC oklab a b = pairScore simC oklab b a := by
  unfold pairScore
  exact deltaE_comm _ _

/-- C5: in a palette built under mode `"normal"`, every pair whose
later-selected member was chosen through the eligible (floor-clearing)
branch is at `distance ≥ MIN_DELTA_E`; only pairs involving a
fallback-chosen element are exempt.  The first conjunct ties the
flag-instrumented builder to the source builder. -/
theorem palette_floor_pairs (ext : Externals) (target : ℤ) (pool : List Color) :
    (buildPaletteF (simByMode ext .normal) ext.oklab target pool).map Prod.fst
      = buildPalette (simByMode ext .normal) ext.oklab target pool ∧
    ∀ i j, i < j →
      j < (buildPaletteF (simByMode ext .normal) ext.oklab target pool).length →
      ((buildPaletteF (simByMode ext .normal) ext.oklab target pool).getD j
        default).2 = true →
      MIN_DELTA_E ≤ distance ext
        ((buildPalette (simByMode ext .normal) ext.oklab target pool).getD i default)
        ((buildPalette (simByMode ext .normal) ext.oklab target pool).getD j default)
        .normal ∧
      MIN_DELTA_E ≤ distance ext
        ((buildPalette (simByMode ext .normal) ext.oklab target pool).getD j default)
        ((buildPalette (simByMode ext .normal) ext.oklab target pool).getD i default)
        .normal := by
  refine ⟨buildPaletteF_fst _ _ _ _, ?_⟩
  intro i j hij hj hflag
  have hfloor := buildPaletteF_floor (simByMode ext .normal) ext.oklab target pool
    j hj hflag i hij
  have hgi : (buildPalette (simByMode ext .normal) ext.oklab target pool).getD i
      default =
      ((buildPaletteF (simByMode ext .normal) ext.oklab target pool).getD i
        default).1 := by
    rw [← buildPaletteF_fst]
    exact getD_map_fst _ i (lt_trans hij hj)
  have hgj : (buildPalette (simByMode ext .normal) ext.oklab target pool).getD j
      default =
      ((buildPaletteF (simByMode ext .normal) ext.oklab target pool).getD j
        default).1 := by
    rw [← buildPaletteF_fst]
    exact getD_map_fst _ j hj
  rw [distance_normal, distance_normal, hgi, hgj]
  exact ⟨by rw [pairScore_comm]; exact hfloor, hfloor⟩

/-- C8 counterexample: on a pool holding the same color value twice, the
builder returns that value twice — only index reuse is prevented, not value
duplication (here the fallback branch re-selects the duplicate value). -/
theorem buildPalette_duplicate_values :
    buildPalette (simByMode extW .normal) extW.oklab 2
        [⟨0.5, 0.5, 0.5⟩, ⟨0.5, 0.5, 0.5⟩] =
      [⟨0.5, 0.5, 0.5⟩, ⟨0.5, 0.5, 0.5⟩] ∧
    ¬ (buildPalette (simByMode extW .normal) extW.oklab 2
        [⟨0.5, 0.5, 0.5⟩, ⟨0.5, 0.5, 0.5⟩]).Nodup := by
  have heval : buildPalette (simByMode extW .normal) extW.oklab 2
      [⟨0.5, 0.5, 0.5⟩, ⟨0.5, 0.5, 0.5⟩] =
      [⟨0.5, 0.5, 0.5⟩, ⟨0.5, 0.5, 0.5⟩] := by
    rw [buildPalette]
    norm_num [seedLoop, gtOpt, midGray, extW, simByMode, deltaE]
    rw [growLoop, dif_pos (by norm_num)]
    norm_num [growSel, growSelAux, selStep, selFb, selElig, SelSt.init, gtOpt, minDEc,
      pairScore, deltaE, simByMode, chosenIdx, MIN_DELTA_E]
    rw [growLoop, dif_neg (by norm_num)]
  refine ⟨heval, ?_⟩
  rw [heval]
  simp

/-- C8 (amended): the colors of a built palette form a sub-multiset of the
candidate pool (no pool index is ever selected twice: each selected candidate
is removed from the pool as it enters the palette), so whenever the pool's
entries are pairwise distinct the palette's colors are pairwise distinct. -/
theorem buildPalette_subperm_nodup (simC : Color → Color) (oklab : Color → Oklab)
    (target : ℤ) (pool : List Color) :
    List.Subperm (buildPalette simC oklab target pool) pool ∧
    (pool.Nodup → (buildPalette simC oklab target pool).Nodup) := by
  have hsub : List.Subperm (buildPalette simC oklab target pool) pool := by
    match pool with
    | [] =>
        rw [buildPalette]
    | c :: cs =>
        rw [buildPalette]
        have hseed := seedIdx_lt
          (fun x => deltaE (oklab (simC x)) (oklab (simC midGray))) (c :: cs) (by simp)
        have h1 := growLoop_subperm (pairScore simC oklab) target
          ((c :: cs).getD ((seedLoop (fun x => deltaE (oklab (simC x)) (oklab (simC midGray)))
            (c :: cs) 0 (0, none)).1) default)
          ((c :: cs).eraseIdx ((seedLoop (fun x => deltaE (oklab (simC x)) (oklab (simC midGray)))
            (c :: cs) 0 (0, none)).1)).length
          ((c :: cs).eraseIdx ((seedLoop (fun x => deltaE (oklab (simC x)) (oklab (simC midGray)))
            (c :: cs) 0 (0, none)).1)) [] rfl
        exact h1.trans (List.Perm.subperm (perm_getD_eraseIdx (c :: cs) _ hseed).symm)
  refine ⟨hsub, fun hnd => ?_⟩
  rcases hsub with ⟨l, hp, hs⟩
  exact hp.nodup_iff.mp (hnd.sublist hs)

/-- C3: with the same random stream (and fuel) and the same target `n`,
`generatePalette` returns exactly the same value for mode `"both"` as for
mode `"normal"`: the builder consumes the mode only through `simulateByMode`,
which treats `"both"` as `"normal"`, and never calls `distance`. -/
theorem generatePalette_both_eq_normal (ext : Externals) (stream : ℕ → ℝ)
    (fuel : ℕ) (n : ℤ) :
    generatePalette ext stream fuel n .both =
      generatePalette ext stream fuel n .normal :=
  rfl

/-- Hexadecimal digit characters decode back to their value. -/
theorem hexVal_hexChar (d : ℕ) (hd : d < 16) : hexVal (hexChar d) = d := by
  interval_cases d <;> decide

/-- The `formatHex` rounding is the identity on 8-bit-quantized channels. -/
theorem chanByte_div (k : ℕ) (hk : k ≤ 255) : chanByte ((k : ℝ) / 255) = k := by
  unfold chanByte
  have h1 : ((k : ℝ) / 255) ≤ 1 := by
    rw [div_le_one (by norm_num)]
    exact_mod_cast hk
  have h0 : (0 : ℝ) ≤ (k : ℝ) / 255 := by positivity
  rw [min_eq_left h1, max_eq_right h0]
  have h2 : (255 : ℝ) * ((k : ℝ) / 255) = (k : ℝ) := by field_simp
  rw [h2, round_natCast]
  exact Int.toNat_natCast k

/-- C9: `hexToRgb` fails exactly on strings that are not a valid 6-digit hex
color (with or without the leading `#`), and on every valid input it returns
the corresponding normalized color; the failure is never recovered
internally. -/
theorem hexToRgb_spec (s : String) :
    (hexToRgb s).elim (validHex6 s = false)
      (fun c => validHex6 s = true ∧ c = hexColorOf s) := by
  unfold hexToRgb parseHex
  by_cases h : validHex6 s = true
  · rw [if_pos h]
    exact ⟨h, rfl⟩
  · rw [if_neg h]
    simpa using h

/-- C10: for every color whose channels are 8-bit quantized (`k/255` with
`k ≤ 255`), formatting and re-parsing returns the color exactly. -/
theorem hexToRgb_rgbToHex (k1 k2 k3 : ℕ)
    (h1 : k1 ≤ 255) (h2 : k2 ≤ 255) (h3 : k3 ≤ 255) :
    hexToRgb (rgbToHex ⟨(k1 : ℝ) / 255, (k2 : ℝ) / 255, (k3 : ℝ) / 255⟩) =
      some ⟨(k1 : ℝ) / 255, (k2 : ℝ) / 255, (k3 : ℝ) / 255⟩ := by
  have hb : rgbToHex ⟨(k1 : ℝ) / 255, (k2 : ℝ) / 255, (k3 : ℝ) / 255⟩ =
      String.mk ('#' :: (byteHex k1 ++ byteHex k2 ++ byteHex k3)) := by
    rw [rgbToHex]
    simp only [chanByte_div k1 h1, chanByte_div k2 h2, chanByte_div k3 h3]
  rw [hb]
  have hds : (String.mk ('#' :: (byteHex k1 ++ byteHex k2 ++ byteHex k3))).toList
      = '#' :: (byteHex k1 ++ byteHex k2 ++ byteHex k3) := rfl
  have hvalid : validHex6 (String.mk ('#' :: (byteHex k1 ++ byteHex k2 ++ byteHex k3)))
      = true := by
    rw [validHex6, hds]
    simp [byteHex, isHexDigitCh_hexChar]
  unfold hexToRgb parseHex
  rw [if_pos hvalid, hexColorOf, hds]
  simp only [List.head?_cons, List.tail_cons, if_true, reduceIte, byteHex, List.cons_append,
    List.nil_append, List.getD_cons_zero, List.getD_cons_succ]
  have e1 : hexVal (hexChar (k1 / 16)) = k1 / 16 := hexVal_hexChar _ (by omega)
  have e2 : hexVal (hexChar (k1 % 16)) = k1 % 16 := hexVal_hexChar _ (Nat.mod_lt _ (by norm_num))
  have e3 : hexVal (hexChar (k2 / 16)) = k2 / 16 := hexVal_hexChar _ (by omega)
  have e4 : hexVal (hexChar (k2 % 16)) = k2 % 16 := hexVal_hexChar _ (Nat.mod_lt _ (by norm_num))
  have e5 : hexVal (hexChar (k3 / 16)) = k3 / 16 := hexVal_hexChar _ (by omega)
  have e6 : hexVal (hexChar (k3 % 16)) = k3 % 16 := hexVal_hexChar _ (Nat.mod_lt _ (by norm_num))
  rw [e1, e2, e3, e4, e5, e6]
  have d1 : 16 * (k1 / 16) + k1 % 16 = k1 := Nat.div_add_mod k1 16
  have d2 : 16 * (k2 / 16) + k2 % 16 = k2 := Nat.div_add_mod k2 16
  have d3 : 16 * (k3 / 16) + k3 % 16 = k3 := Nat.div_add_mod k3 16
  rw [d1, d2, d3]

/-- C10 witness: the round trip at the concrete quantized color
`(0/255, 128/255, 255/255)`. -/
theorem hexToRgb_rgbToHex_witness :
    (0 ≤ 255 ∧ 128 ≤ 255 ∧ 255 ≤ 255) ∧
    hexToRgb (rgbToHex ⟨((0 : ℕ) : ℝ) / 255, ((128 : ℕ) : ℝ) / 255, ((255 : ℕ) : ℝ) / 255⟩) =
      some ⟨((0 : ℕ) : ℝ) / 255, ((128 : ℕ) : ℝ) / 255, ((255 : ℕ) : ℝ) / 255⟩ :=
  ⟨⟨by decide, by decide, by decide⟩,
    hexToRgb_rgbToHex 0 128 255 (by decide) (by decide) (by decide)⟩

end DeltaPalette
